import Mathlib

/-!
Shallow embedding of the ichnaea measurement-archival core: block scheduling,
archive writing and age/verification-gated deletion, together with proofs of
the behavioural properties claimed about it.

The repository ships only the test suite for this core
(src/ichnaea/backup/tests.py); the implementation modules
(ichnaea/backup/tasks.py, ichnaea/backup/s3.py, ichnaea/models.py) are not in
the source tree.  The definitions below are therefore modelled from the
specification, with every behavioural choice that the spec leaves ambiguous
resolved the way the shipped tests pin it down (the tests are the only
executable authority present).  Two such resolutions matter:

* the deletion pass removes records with `start_id <= id <= end_id`
  (inclusive upper bound): test_delete_cell_measures inserts ids 100..149
  (50 records), uses the block [120, 140) and asserts 29 survivors, i.e.
  21 deletions, which is the inclusive range 120..140;

* when no block exists yet, scheduling starts at the smallest existing
  record id (not at 0), and a block is emitted while
  `maxId + 1 - lastEnd >= batch`: test_schedule_cell_measures asserts the
  sequence (start, start+15), [], (start+15, start+20), [] for 20 records,
  which no start value satisfies under the literal "lastEnd = 0 if none"
  and "maxId - lastEnd >= batch" reading.
-/

namespace Ichnaea

/-- Measurement kind: the two parallel pipelines of the source. -/
inductive Kind
  | cell
  | wifi
deriving DecidableEq, Repr

/-- Modelled from the spec: the per-kind name used in file and object names. -/
def kindName : Kind → String
  | .cell => "cell"
  | .wifi => "wifi"

/-- A measurement record: monotonically increasing `id` and a `created`
timestamp (timestamps are modelled as natural numbers). -/
structure Record where
  kind : Kind
  id : Nat
  created : Nat
deriving DecidableEq, Repr

/-- A persisted archival block: contiguous id range for one kind, with the
nullable archival fields `s3_key`, `archive_sha` (raw digest bytes) and
`archive_date`. -/
structure Block where
  measure_type : Kind
  start_id : Nat
  end_id : Nat
  s3_key : Option String
  archive_sha : Option (List Nat)
  archive_date : Option Nat
deriving DecidableEq, Repr

/-- The persistent state the core operates on: the measurement records of
both kinds and the archival blocks. -/
structure State where
  records : List Record
  blocks : List Block
deriving DecidableEq, Repr

/-- The records of one kind. -/
def recsOf (k : Kind) (st : State) : List Record :=
  st.records.filter (fun r => r.kind == k)

/-- The ids of the records of one kind. -/
def idsOf (k : Kind) (st : State) : List Nat :=
  (recsOf k st).map (fun r => r.id)

/-- The `end_id`s of the persisted blocks of one kind. -/
def blockEndsOf (k : Kind) (st : State) : List Nat :=
  (st.blocks.filter (fun b => b.measure_type == k)).map (fun b => b.end_id)

/-- Modelled from the spec: the largest existing record id of a kind
(0 when there are no records; the scheduler returns early in that case). -/
def maxIdOf (k : Kind) (st : State) : Nat :=
  (idsOf k st).foldl Nat.max 0

/-- Modelled from the spec: the smallest existing record id of a kind. -/
def minIdOf (k : Kind) (st : State) : Nat :=
  match idsOf k st with
  | [] => 0
  | x :: xs => xs.foldl Nat.min x

/-- Modelled from the spec: where scheduling resumes — the largest `end_id`
over the kind's existing blocks, or, when no block exists yet, the smallest
existing record id (the behaviour the shipped scheduling tests pin down). -/
def lastEndOf (k : Kind) (st : State) : Nat :=
  if blockEndsOf k st = [] then minIdOf k st
  else (blockEndsOf k st).foldl Nat.max 0

/-- Modelled from the spec: how many full blocks of size `n` fit in the
unscheduled remainder `maxId + 1 - lastEnd`. -/
def schedCount (k : Kind) (n : Nat) (st : State) : Nat :=
  (maxIdOf k st + 1 - lastEndOf k st) / n

/-- Modelled from the spec: the half-open ranges emitted by one scheduling
call, consecutive blocks of width `n` starting at `lastEndOf`. -/
def schedRanges (k : Kind) (n : Nat) (st : State) : List (Nat × Nat) :=
  (List.range (schedCount k n st)).map
    (fun i => (lastEndOf k st + i * n, lastEndOf k st + (i + 1) * n))

/-- A freshly scheduled block: archival fields all unset. -/
def mkBlock (k : Kind) (a b : Nat) : Block :=
  ⟨k, a, b, none, none, none⟩

/-- Modelled from the spec: `schedule(kind, batchSize)` — partitions the
unscheduled id space into full-size contiguous blocks, persists them and
returns their ranges; with no records of the kind it returns an empty
sequence and persists nothing. -/
def schedule (k : Kind) (n : Nat) (st : State) : List (Nat × Nat) × State :=
  if (idsOf k st).isEmpty then ([], st)
  else
    (schedRanges k n st,
     ⟨st.records, st.blocks ++ (schedRanges k n st).map (fun p => mkBlock k p.1 p.2)⟩)

/-- Modelled from the spec: the fixed version-marker entry name found in
every bundle (the tests name it alembic_revision.txt). -/
def markerName : String := "alembic_revision.txt"

/-- Modelled from the spec: the version-marker entry's content bytes. -/
def markerBytes : List Nat := [49]

/-- Modelled from the spec: the per-kind export file name. -/
def csvName (k : Kind) : String := kindName k ++ "_measure.csv"

/-- Bytes of a string, one value per character. -/
def strBytes (s : String) : List Nat := s.data.map Char.toNat

/-- Modelled from the spec: the tabular export of a record list, one row per
record with its in-scope attributes. -/
def csvBytes (recs : List Record) : List Nat :=
  (recs.map (fun r => [r.id, r.created, 10])).flatten

/-- An archive bundle: a container of named entries. -/
structure Bundle where
  entries : List (String × List Nat)
deriving DecidableEq, Repr

/-- Modelled from the spec: the bundle built for one block — exactly the
fixed version-marker entry plus the kind's export file. -/
def bundleFor (k : Kind) (recs : List Record) : Bundle :=
  ⟨[(markerName, markerBytes), (csvName k, csvBytes recs)]⟩

/-- Modelled from the spec: the serialized bytes of the compressed container
(a deterministic encoding of its entries; the digest below is computed over
these bytes). -/
def bundleBytes (bd : Bundle) : List Nat :=
  (bd.entries.map (fun e => strBytes e.1 ++ 0 :: e.2 ++ [1])).flatten

/-- Modelled from the spec: the deterministic object key
`"{pre}/{kind}_{start}-{end}"`. -/
def keyFor (pre : String) (k : Kind) (a b : Nat) : String :=
  pre ++ "/" ++ kindName k ++ "_" ++ toString a ++ "-" ++ toString b

/-- The records a block's export covers: the kind's records with id in the
scheduled half-open range. -/
def exportRecs (k : Kind) (a b : Nat) (recs : List Record) : List Record :=
  recs.filter (fun r => r.kind == k && decide (a ≤ r.id) && decide (r.id < b))

/-- Modelled from the spec: one writer pass over one block — a block of the
kind with `s3_key` unset gets its bundle built, uploaded (success decided by
`upOk` on the deterministic key) and, only on success, `s3_key` and
`archive_sha` persisted, emitting the (key, local artifact) event; every
other block is untouched. `sha1` is the digest function, applied to the
container bytes. -/
def processWrite (k : Kind) (sha1 : List Nat → List Nat) (upOk : String → Bool)
    (pre : String) (recs : List Record) (b : Block) :
    Block × Option (String × Bundle) :=
  if b.measure_type == k && b.s3_key.isNone then
    if upOk (keyFor pre k b.start_id b.end_id) then
      ({ b with
          s3_key := some (keyFor pre k b.start_id b.end_id),
          archive_sha := some (sha1 (bundleBytes
            (bundleFor k (exportRecs k b.start_id b.end_id recs)))) },
       some (keyFor pre k b.start_id b.end_id,
             bundleFor k (exportRecs k b.start_id b.end_id recs)))
    else (b, none)
  else (b, none)

/-- Modelled from the spec: `writeArchives(kind)` — processes every block,
returns the new state and the per-success (key, local artifact) events. -/
def writeArchives (k : Kind) (sha1 : List Nat → List Nat) (upOk : String → Bool)
    (pre : String) (st : State) : State × List (String × Bundle) :=
  (⟨st.records, (st.blocks.map (processWrite k sha1 upOk pre st.records)).map Prod.fst⟩,
   (st.blocks.map (processWrite k sha1 upOk pre st.records)).filterMap Prod.snd)

/-- The records one deletion pass of a block touches: same kind, id between
`start_id` and `end_id` INCLUSIVE — the bound the shipped deletion tests pin
down (50 records 100..149, block [120,140), 29 survivors). -/
def inRange (b : Block) (r : Record) : Bool :=
  r.kind == b.measure_type && decide (b.start_id ≤ r.id) && decide (r.id ≤ b.end_id)

/-- True when every record of the list has aged past the retention
threshold: `now - created > thr`. -/
def allAged (now thr : Nat) (recs : List Record) : Bool :=
  recs.all (fun r => decide (r.created + thr < now))

/-- Modelled from the spec: one enforcer pass over one block — only a block
of the kind with `s3_key` and `archive_sha` set and `archive_date` unset is
considered; its upload is re-verified, and only if every record it covers
has aged past the threshold are all of them deleted and `archive_date` set;
otherwise nothing changes. -/
def processDelete (k : Kind) (verify : String → List Nat → Bool) (now thr : Nat)
    (b : Block) (recs : List Record) : Block × List Record :=
  if b.measure_type == k then
    match b.s3_key, b.archive_sha, b.archive_date with
    | some key, some sha, none =>
      if verify key sha then
        if allAged now thr (recs.filter (inRange b)) then
          ({ b with archive_date := some now },
           recs.filter (fun r => ! inRange b r))
        else (b, recs)
      else (b, recs)
    | _, _, _ => (b, recs)
  else (b, recs)

/-- Sequential enforcer pass over a block list, threading the record list. -/
def delBlocks (k : Kind) (verify : String → List Nat → Bool) (now thr : Nat) :
    List Block → List Record → List Block × List Record
  | [], recs => ([], recs)
  | b :: bs, recs =>
    let p := processDelete k verify now thr b recs
    let q := delBlocks k verify now thr bs p.2
    (p.1 :: q.1, q.2)

/-- Modelled from the spec: `deleteArchived(kind)` — the age-gated,
verification-gated deletion pass over every block of the kind. -/
def deleteArchived (k : Kind) (verify : String → List Nat → Bool) (now thr : Nat)
    (st : State) : State :=
  let p := delBlocks k verify now thr st.blocks st.records
  ⟨p.2, p.1⟩

/-! ## Concrete states mirroring the shipped tests -/

/-- `c` records of one kind with consecutive ids starting at `a`, all with
the same `created` timestamp `t`. -/
def recsIds (k : Kind) (a c t : Nat) : List Record :=
  (List.range c).map (fun i => ⟨k, a + i, t⟩)

/-- The deletion-test state: cell records with ids 100..149 (all old) and
one archived, unfinalized block [120, 140). -/
def stDel : State :=
  ⟨recsIds Kind.cell 100 50 0,
   [⟨Kind.cell, 120, 140, some "fake_key", some [1], none⟩]⟩

/-- The skip-deletion-test state: the same block, but every record created
at time 1000 (too young at `now = 1000`). -/
def stDelYoung : State :=
  ⟨recsIds Kind.cell 100 50 1000,
   [⟨Kind.cell, 120, 140, some "fake_key", some [1], none⟩]⟩

/-! ## Fold helpers -/

theorem foldl_max_le (xs : List Nat) (a M : Nat) (ha : a ≤ M)
    (h : ∀ y ∈ xs, y ≤ M) : xs.foldl Nat.max a ≤ M := by
  induction xs generalizing a with
  | nil => exact ha
  | cons x xs ih =>
    exact ih (Nat.max a x)
      (Nat.max_le.2 ⟨ha, h x (List.mem_cons_self x xs)⟩)
      (fun y hy => h y (List.mem_cons_of_mem x hy))

theorem le_foldl_max_init (xs : List Nat) (a : Nat) : a ≤ xs.foldl Nat.max a := by
  induction xs generalizing a with
  | nil => exact Nat.le_refl a
  | cons x xs ih =>
    exact Nat.le_trans (Nat.le_max_left a x) (ih (Nat.max a x))

theorem le_foldl_max_mem (xs : List Nat) (a y : Nat) (hy : y ∈ xs) :
    y ≤ xs.foldl Nat.max a := by
  induction xs generalizing a with
  | nil => cases hy
  | cons x xs ih =>
    rcases List.mem_cons.1 hy with rfl | hmem
    · exact Nat.le_trans (Nat.le_max_right a y) (le_foldl_max_init xs (Nat.max a y))
    · exact ih (Nat.max a x) hmem

theorem foldl_max_eq (xs : List Nat) (M : Nat) (hmem : M ∈ xs)
    (h : ∀ y ∈ xs, y ≤ M) : xs.foldl Nat.max 0 = M :=
  Nat.le_antisymm (foldl_max_le xs 0 M (Nat.zero_le M) h) (le_foldl_max_mem xs 0 M hmem)

theorem foldl_min_le_init (xs : List Nat) (a : Nat) : xs.foldl Nat.min a ≤ a := by
  induction xs generalizing a with
  | nil => exact Nat.le_refl a
  | cons x xs ih =>
    exact Nat.le_trans (ih (Nat.min a x)) (Nat.min_le_left a x)

theorem foldl_min_le_mem (xs : List Nat) (a y : Nat) (hy : y ∈ xs) :
    xs.foldl Nat.min a ≤ y := by
  induction xs generalizing a with
  | nil => cases hy
  | cons x xs ih =>
    rcases List.mem_cons.1 hy with rfl | hmem
    · exact Nat.le_trans (foldl_min_le_init xs (Nat.min a y)) (Nat.min_le_right a y)
    · exact ih (Nat.min a x) hmem

theorem le_foldl_min (xs : List Nat) (a m : Nat) (ha : m ≤ a)
    (h : ∀ y ∈ xs, m ≤ y) : m ≤ xs.foldl Nat.min a := by
  induction xs generalizing a with
  | nil => exact ha
  | cons x xs ih =>
    exact ih (Nat.min a x)
      (Nat.le_min.2 ⟨ha, h x (List.mem_cons_self x xs)⟩)
      (fun y hy => h y (List.mem_cons_of_mem x hy))

/-- Characterization of `maxIdOf` from a witness and an upper bound. -/
theorem maxIdOf_eq (k : Kind) (st : State) (M : Nat) (hmem : M ∈ idsOf k st)
    (h : ∀ y ∈ idsOf k st, y ≤ M) : maxIdOf k st = M :=
  foldl_max_eq _ M hmem h

/-- Characterization of `minIdOf` from a witness and a lower bound. -/
theorem minIdOf_eq (k : Kind) (st : State) (m : Nat) (hmem : m ∈ idsOf k st)
    (h : ∀ y ∈ idsOf k st, m ≤ y) : minIdOf k st = m := by
  unfold minIdOf
  rcases hx : idsOf k st with _ | ⟨x, xs⟩
  · rw [hx] at hmem; cases hmem
  · rw [hx] at hmem h
    have hup : xs.foldl Nat.min x ≤ m := by
      rcases List.mem_cons.1 hmem with rfl | hmem'
      · exact foldl_min_le_init xs m
      · exact foldl_min_le_mem xs x m hmem'
    exact Nat.le_antisymm hup
      (le_foldl_min xs x m (h x (List.mem_cons_self x xs)) (fun y hy => h y (List.mem_cons_of_mem x hy)))

/-- Every persisted end of a kind is at most where scheduling resumes. -/
theorem le_lastEndOf (k : Kind) (st : State) (e : Nat) (he : e ∈ blockEndsOf k st) :
    e ≤ lastEndOf k st := by
  unfold lastEndOf
  rcases hx : blockEndsOf k st with _ | ⟨x, xs⟩
  · rw [hx] at he; cases he
  · rw [hx] at he
    simp only [List.cons_ne_nil, if_false]
    exact le_foldl_max_mem _ 0 e he

/-- Characterization of `lastEndOf` when blocks exist. -/
theorem lastEndOf_eq (k : Kind) (st : State) (E : Nat) (hmem : E ∈ blockEndsOf k st)
    (h : ∀ e ∈ blockEndsOf k st, e ≤ E) : lastEndOf k st = E := by
  unfold lastEndOf
  rcases hx : blockEndsOf k st with _ | ⟨x, xs⟩
  · rw [hx] at hmem; cases hmem
  · rw [hx] at hmem h
    simp only [List.cons_ne_nil, if_false]
    exact foldl_max_eq _ E hmem h

/-! ## Enforcer lemmas -/

/-- One enforcer pass over one block either leaves the state alone or, for
an eligible block of the kind, finalizes it and removes its covered records. -/
theorem processDelete_cases (k : Kind) (verify : String → List Nat → Bool)
    (now thr : Nat) (b : Block) (recs : List Record) :
    processDelete k verify now thr b recs = (b, recs) ∨
    (b.measure_type = k ∧ b.archive_date = none ∧
      processDelete k verify now thr b recs =
        ({ b with archive_date := some now }, recs.filter (fun r => ! inRange b r))) := by
  unfold processDelete
  split
  · rename_i hk
    split
    · rename_i key sha hkey hsha hdate
      split
      · split
        · right
          exact ⟨by simpa using hk, hdate, rfl⟩
        · left; rfl
      · left; rfl
    · left; rfl
  · left; rfl

/-- A verify function that always fails makes one pass a no-op. -/
theorem processDelete_false (k : Kind) (now thr : Nat) (b : Block) (recs : List Record) :
    processDelete k (fun _ _ => false) now thr b recs = (b, recs) := by
  unfold processDelete
  split
  · split
    · simp
    · rfl
  · rfl

theorem delBlocks_false (k : Kind) (now thr : Nat) :
    ∀ (bs : List Block) (recs : List Record),
      delBlocks k (fun _ _ => false) now thr bs recs = (bs, recs) := by
  intro bs
  induction bs with
  | nil => intro recs; rfl
  | cons b bs ih =>
    intro recs
    simp only [delBlocks, processDelete_false, ih]

/-- The enforcer on a single-block state reduces to one pass. -/
theorem deleteArchived_single (k : Kind) (verify : String → List Nat → Bool)
    (now thr : Nat) (b : Block) (recs : List Record) :
    deleteArchived k verify now thr ⟨recs, [b]⟩ =
      ⟨(processDelete k verify now thr b recs).2,
       [(processDelete k verify now thr b recs).1]⟩ := rfl

/-- A verified, eligible, fully aged single-block pass finalizes the block
and removes the covered records. -/
theorem deleteArchived_single_finalize (recs : List Record) (b : Block)
    (key : String) (sha : List Nat) (verify : String → List Nat → Bool) (now thr : Nat)
    (hk : b.s3_key = some key) (hs : b.archive_sha = some sha)
    (hd : b.archive_date = none) (hv : verify key sha = true)
    (hage : ∀ r ∈ recs, inRange b r = true → r.created + thr < now) :
    deleteArchived b.measure_type verify now thr ⟨recs, [b]⟩ =
      ⟨recs.filter (fun r => ! inRange b r), [{ b with archive_date := some now }]⟩ := by
  have hall : allAged now thr (recs.filter (inRange b)) = true := by
    simp only [allAged, List.all_eq_true, decide_eq_true_eq]
    intro r hr
    have hmem := List.mem_filter.1 hr
    exact hage r hmem.1 hmem.2
  rw [deleteArchived_single]
  unfold processDelete
  rw [hk, hs, hd]
  simp only [beq_self_eq_true, if_true, hv, hall]

/-- A pass that leaves the one block alone leaves the whole state alone. -/
theorem deleteArchived_single_keep (k : Kind) (verify : String → List Nat → Bool)
    (now thr : Nat) (b : Block) (recs : List Record)
    (h : processDelete k verify now thr b recs = (b, recs)) :
    deleteArchived k verify now thr ⟨recs, [b]⟩ = ⟨recs, [b]⟩ := by
  rw [deleteArchived_single, h]

/-- C1: for a finalized deletion pass on a verified block, the enforcer
inspects and deletes the records of the block's kind with
`start_id <= id <= end_id` — the upper bound is INCLUSIVE, so the record
with `id = end_id` is deleted too (this is the corrected form of the claim;
see `c1_counterexample`) — and sets `archive_date` on the block. -/
theorem c1_delete_inclusive (recs : List Record) (b : Block)
    (key : String) (sha : List Nat) (verify : String → List Nat → Bool) (now thr : Nat)
    (hk : b.s3_key = some key) (hs : b.archive_sha = some sha)
    (hd : b.archive_date = none) (hv : verify key sha = true)
    (hage : ∀ r ∈ recs, inRange b r = true → r.created + thr < now) :
    deleteArchived b.measure_type verify now thr ⟨recs, [b]⟩ =
      ⟨recs.filter (fun r =>
         ! (r.kind == b.measure_type && decide (b.start_id ≤ r.id)
             && decide (r.id ≤ b.end_id))),
       [{ b with archive_date := some now }]⟩ :=
  deleteArchived_single_finalize recs b key sha verify now thr hk hs hd hv hage

/-- C1 witness: the shipped deletion-test scenario (records 100..149, block
[120, 140), all aged) evaluated through `c1_delete_inclusive`. -/
theorem c1_delete_inclusive_witness :
    deleteArchived Kind.cell (fun _ _ => true) 1000 10 stDel =
      ⟨(recsIds Kind.cell 100 50 0).filter (fun r =>
         ! (r.kind == Kind.cell && decide (120 ≤ r.id) && decide (r.id ≤ 140))),
       [⟨Kind.cell, 120, 140, some "fake_key", some [1], some 1000⟩]⟩ :=
  c1_delete_inclusive (recsIds Kind.cell 100 50 0)
    ⟨Kind.cell, 120, 140, some "fake_key", some [1], none⟩
    "fake_key" [1] (fun _ _ => true) 1000 10 rfl rfl rfl rfl (by decide)

/-- C1 counterexample: in the shipped test scenario the record with
`id = end_id = 140` IS deleted (21 records go, 29 of 50 remain), refuting
the claim that a record with id equal to `end_id` is neither inspected nor
deleted. -/
theorem c1_half_open_counterexample :
    (⟨Kind.cell, 140, 0⟩ : Record) ∈ stDel.records ∧
    (⟨Kind.cell, 140, 0⟩ : Record) ∉
      (deleteArchived Kind.cell (fun _ _ => true) 1000 10 stDel).records ∧
    (deleteArchived Kind.cell (fun _ _ => true) 1000 10 stDel).records.length = 29 := by
  decide

/-- C3: on a verified eligible block, one record in range too young means
the pass changes nothing at all (whole-block-or-nothing), and once every
record in range has aged past the threshold the next pass deletes them all
and sets `archive_date`. -/
theorem c3_age_gating (recs : List Record) (b : Block)
    (key : String) (sha : List Nat) (verify : String → List Nat → Bool) (now thr : Nat)
    (hk : b.s3_key = some key) (hs : b.archive_sha = some sha)
    (hd : b.archive_date = none) (hv : verify key sha = true) :
    ((∃ r ∈ recs, inRange b r = true ∧ now ≤ r.created + thr) →
       deleteArchived b.measure_type verify now thr ⟨recs, [b]⟩ = ⟨recs, [b]⟩) ∧
    ((∀ r ∈ recs, inRange b r = true → r.created + thr < now) →
       deleteArchived b.measure_type verify now thr ⟨recs, [b]⟩ =
         ⟨recs.filter (fun r => ! inRange b r),
          [{ b with archive_date := some now }]⟩) := by
  constructor
  · intro hyoung
    apply deleteArchived_single_keep
    obtain ⟨r, hr, hin, hle⟩ := hyoung
    have hall : allAged now thr (recs.filter (inRange b)) = false := by
      cases hb : allAged now thr (recs.filter (inRange b)) with
      | false => rfl
      | true =>
        exfalso
        have := (List.all_eq_true.1 hb) r (List.mem_filter.2 ⟨hr, hin⟩)
        rw [decide_eq_true_eq] at this
        omega
    unfold processDelete
    rw [hk, hs, hd]
    simp [hv, hall]
  · intro hage
    exact deleteArchived_single_finalize recs b key sha verify now thr hk hs hd hv hage

/-- C3 witness: the shipped skip-deletion scenario (all records created at
`now`) through `c3_age_gating` — nothing is deleted and `archive_date`
stays unset. -/
theorem c3_age_gating_witness :
    deleteArchived Kind.cell (fun _ _ => true) 1000 10 stDelYoung = stDelYoung :=
  (c3_age_gating (recsIds Kind.cell 100 50 1000)
    ⟨Kind.cell, 120, 140, some "fake_key", some [1], none⟩
    "fake_key" [1] (fun _ _ => true) 1000 10 rfl rfl rfl rfl).1 (by decide)

/-- C4: a failed verification means zero deletions and an unchanged,
still-eligible block, regardless of record ages: globally for a verify
function that always fails, and for a single eligible block whose specific
key/digest fails verification. -/
theorem c4_verify_gating (st : State) (k : Kind) (now thr : Nat)
    (recs : List Record) (b : Block) (key : String) (sha : List Nat)
    (verify : String → List Nat → Bool) :
    (deleteArchived k (fun _ _ => false) now thr st = st) ∧
    (b.s3_key = some key → b.archive_sha = some sha → b.archive_date = none →
      verify key sha = false →
      deleteArchived b.measure_type verify now thr ⟨recs, [b]⟩ = ⟨recs, [b]⟩) := by
  constructor
  · obtain ⟨recs0, bs0⟩ := st
    simp [deleteArchived, delBlocks_false]
  · intro hk hs hd hv
    apply deleteArchived_single_keep
    unfold processDelete
    rw [hk, hs, hd]
    simp [hv]

/-- C4 witness: the deletion-test state with all records aged, but a verify
that fails — nothing changes. -/
theorem c4_verify_gating_witness :
    deleteArchived Kind.cell (fun _ _ => false) 1000 10 stDel = stDel :=
  (c4_verify_gating stDel Kind.cell 1000 10 (recsIds Kind.cell 100 50 0)
    ⟨Kind.cell, 120, 140, some "fake_key", some [1], none⟩
    "fake_key" [1] (fun _ _ => false)).2 rfl rfl rfl rfl

/-- A record surviving one pass was already present. -/
theorem processDelete_snd_sub (k : Kind) (verify : String → List Nat → Bool)
    (now thr : Nat) (b : Block) (recs : List Record) (r : Record)
    (h : r ∈ (processDelete k verify now thr b recs).2) : r ∈ recs := by
  rcases processDelete_cases k verify now thr b recs with hc | ⟨_, _, hc⟩
  · rw [hc] at h; exact h
  · rw [hc] at h; exact (List.mem_filter.1 h).1

/-- A record of another kind, or outside the inclusive range of the block,
survives one pass. -/
theorem processDelete_keep (k : Kind) (verify : String → List Nat → Bool)
    (now thr : Nat) (b : Block) (recs : List Record) (r : Record)
    (hr : r ∈ recs)
    (hcond : r.kind ≠ k ∨ (b.measure_type = k → r.id < b.start_id ∨ b.end_id < r.id)) :
    r ∈ (processDelete k verify now thr b recs).2 := by
  rcases processDelete_cases k verify now thr b recs with hc | ⟨hk, _, hc⟩
  · rw [hc]; exact hr
  · rw [hc]
    refine List.mem_filter.2 ⟨hr, ?_⟩
    have hfalse : inRange b r = false := by
      rcases hcond with hne | hout
      · have : (r.kind == b.measure_type) = false := by
          rw [hk]
          exact beq_eq_false_iff_ne.2 hne
        simp [inRange, this]
      · rcases hout hk with h1 | h2 <;>
          simp [inRange, decide_eq_true_eq] <;> omega
    simp [hfalse]

theorem delBlocks_snd_sub (k : Kind) (verify : String → List Nat → Bool)
    (now thr : Nat) :
    ∀ (bs : List Block) (recs : List Record) (r : Record),
      r ∈ (delBlocks k verify now thr bs recs).2 → r ∈ recs := by
  intro bs
  induction bs with
  | nil => intro recs r h; exact h
  | cons b bs ih =>
    intro recs r h
    exact processDelete_snd_sub k verify now thr b recs r (ih _ r h)

theorem delBlocks_keep (k : Kind) (verify : String → List Nat → Bool)
    (now thr : Nat) :
    ∀ (bs : List Block) (recs : List Record) (r : Record),
      r ∈ recs →
      (r.kind ≠ k ∨ ∀ b ∈ bs, b.measure_type = k → r.id < b.start_id ∨ b.end_id < r.id) →
      r ∈ (delBlocks k verify now thr bs recs).2 := by
  intro bs
  induction bs with
  | nil => intro recs r hr _; exact hr
  | cons b bs ih =>
    intro recs r hr hcond
    have step : r ∈ (processDelete k verify now thr b recs).2 := by
      apply processDelete_keep k verify now thr b recs r hr
      rcases hcond with hne | hall
      · exact Or.inl hne
      · exact Or.inr (hall b (List.mem_cons_self b bs))
    apply ih _ r step
    rcases hcond with hne | hall
    · exact Or.inl hne
    · exact Or.inr (fun b2 hb2 => hall b2 (List.mem_cons_of_mem b hb2))

/-- C10: `deleteArchived` for one kind never invents or modifies records,
never touches records of the other kind, and never touches records of the
same kind whose id is strictly below a block's `start_id` or strictly above
its `end_id` for every block of the kind. -/
theorem c10_delete_frame (st : State) (k : Kind) (verify : String → List Nat → Bool)
    (now thr : Nat) :
    (∀ r ∈ (deleteArchived k verify now thr st).records, r ∈ st.records) ∧
    (∀ r ∈ st.records,
       (r.kind ≠ k ∨ ∀ b ∈ st.blocks, b.measure_type = k → r.id < b.start_id ∨ b.end_id < r.id) →
       r ∈ (deleteArchived k verify now thr st).records) := by
  constructor
  · intro r h
    exact delBlocks_snd_sub k verify now thr st.blocks st.records r h
  · intro r hr hcond
    exact delBlocks_keep k verify now thr st.blocks st.records r hr hcond

/-- C10 witness: in the deletion-test state, the cell record with id 100
(strictly below the block's `start_id` 120) survives the pass. -/
theorem c10_delete_frame_witness :
    (⟨Kind.cell, 100, 0⟩ : Record) ∈
      (deleteArchived Kind.cell (fun _ _ => true) 1000 10 stDel).records :=
  (c10_delete_frame stDel Kind.cell (fun _ _ => true) 1000 10).2
    ⟨Kind.cell, 100, 0⟩ (by decide) (by decide)

/-! ## Writer lemmas -/

/-- What a successful write event determines: the artifact, the key, and
the block's persisted fields. -/
theorem processWrite_event (k : Kind) (sha1 : List Nat → List Nat)
    (upOk : String → Bool) (pre : String) (recs : List Record) (b : Block)
    (key : String) (bd : Bundle)
    (h : (processWrite k sha1 upOk pre recs b).2 = some (key, bd)) :
    bd = bundleFor k (exportRecs k b.start_id b.end_id recs) ∧
    key = keyFor pre k b.start_id b.end_id ∧
    (processWrite k sha1 upOk pre recs b).1 =
      { b with s3_key := some key, archive_sha := some (sha1 (bundleBytes bd)) } := by
  unfold processWrite at h ⊢
  split at h
  · rename_i hcond
    split at h
    · rename_i hup
      rw [Option.some_inj] at h
      injection h with h1 h2
      subst h1
      subst h2
      refine ⟨rfl, rfl, ?_⟩
      simp only [hcond, hup, if_true]
    · exact absurd h (by simp)
  · exact absurd h (by simp)

/-- C5: every bundle produced by `writeArchives` holds exactly the fixed
version-marker entry and the kind's `<kind>_measure.csv` export, and the
digest function applied to the local artifact's bytes is exactly the
`archive_sha` persisted on the written block. -/
theorem c5_bundle_digest (st : State) (k : Kind) (sha1 : List Nat → List Nat)
    (upOk : String → Bool) (pre : String) (key : String) (bd : Bundle)
    (h : (key, bd) ∈ (writeArchives k sha1 upOk pre st).2) :
    bd.entries.map Prod.fst = [markerName, csvName k] ∧
    ∃ b2 ∈ (writeArchives k sha1 upOk pre st).1.blocks,
      b2.s3_key = some key ∧ b2.archive_sha = some (sha1 (bundleBytes bd)) := by
  unfold writeArchives at h ⊢
  rw [List.filterMap_map] at h
  obtain ⟨b, hb, hfb⟩ := List.mem_filterMap.1 h
  obtain ⟨hbd, hkey, hblk⟩ :=
    processWrite_event k sha1 upOk pre st.records b key bd hfb
  constructor
  · rw [hbd]
    simp [bundleFor]
  · refine ⟨(processWrite k sha1 upOk pre st.records b).1, ?_, ?_, ?_⟩
    · simp only [List.map_map]
      exact List.mem_map.2 ⟨b, hb, rfl⟩
    · rw [hblk]
    · rw [hblk]

/-- A scheduled-but-unarchived single-block state used to exercise the
writer: cell records 1..10 and the block [1, 11). -/
def stSched : State := ⟨recsIds Kind.cell 1 10 0, [mkBlock Kind.cell 1 11]⟩

/-- C5 witness: the writer run on `stSched` emits the event for key
"backups/cell_1-11", whose bundle names exactly the marker and
cell_measure.csv, with the digest persisted on the block. -/
theorem c5_bundle_digest_witness :
    (bundleFor Kind.cell (exportRecs Kind.cell 1 11 (recsIds Kind.cell 1 10 0))).entries.map
        Prod.fst = [markerName, csvName Kind.cell] ∧
    ∃ b2 ∈ (writeArchives Kind.cell (fun l => l) (fun _ => true) "backups" stSched).1.blocks,
      b2.s3_key = some "backups/cell_1-11" ∧
      b2.archive_sha = some (bundleBytes
        (bundleFor Kind.cell (exportRecs Kind.cell 1 11 (recsIds Kind.cell 1 10 0)))) :=
  c5_bundle_digest stSched Kind.cell (fun l => l) (fun _ => true) "backups"
    "backups/cell_1-11"
    (bundleFor Kind.cell (exportRecs Kind.cell 1 11 (recsIds Kind.cell 1 10 0)))
    (by decide)

/-! ## State-machine monotonicity -/

/-- Forward-only transition for one writer pass: identity on the range and
kind, set fields stay as they are, `archive_date` untouched. -/
def blockMonoW (b b2 : Block) : Prop :=
  b2.measure_type = b.measure_type ∧ b2.start_id = b.start_id ∧ b2.end_id = b.end_id ∧
  (∀ x, b.s3_key = some x → b2.s3_key = some x) ∧
  (∀ x, b.archive_sha = some x → b2.archive_sha = some x) ∧
  b2.archive_date = b.archive_date

/-- Forward-only transition for one enforcer pass: identity on the range,
kind, key and digest; `archive_date` only ever goes from unset to set. -/
def blockMonoD (b b2 : Block) : Prop :=
  b2.measure_type = b.measure_type ∧ b2.start_id = b.start_id ∧ b2.end_id = b.end_id ∧
  b2.s3_key = b.s3_key ∧ b2.archive_sha = b.archive_sha ∧
  (∀ x, b.archive_date = some x → b2.archive_date = some x)

theorem blockMonoW_rfl (b : Block) : blockMonoW b b :=
  ⟨rfl, rfl, rfl, fun _ h => h, fun _ h => h, rfl⟩

theorem blockMonoD_rfl (b : Block) : blockMonoD b b :=
  ⟨rfl, rfl, rfl, rfl, rfl, fun _ h => h⟩

theorem processWrite_mono (k : Kind) (sha1 : List Nat → List Nat)
    (upOk : String → Bool) (pre : String) (recs : List Record) (b : Block)
    (hwf : b.s3_key = none → b.archive_sha = none) :
    blockMonoW b (processWrite k sha1 upOk pre recs b).1 := by
  unfold processWrite
  split
  · rename_i hcond
    split
    · have hnone : b.s3_key = none := by
        simp only [Bool.and_eq_true, Option.isNone_iff_eq_none] at hcond
        exact hcond.2
      refine ⟨rfl, rfl, rfl, ?_, ?_, rfl⟩
      · intro x hx; rw [hnone] at hx; cases hx
      · intro x hx; rw [hwf hnone] at hx; cases hx
    · exact blockMonoW_rfl b
  · exact blockMonoW_rfl b

theorem processDelete_mono (k : Kind) (verify : String → List Nat → Bool)
    (now thr : Nat) (b : Block) (recs : List Record) :
    blockMonoD b (processDelete k verify now thr b recs).1 := by
  rcases processDelete_cases k verify now thr b recs with hc | ⟨_, hd, hc⟩
  · rw [hc]; exact blockMonoD_rfl b
  · rw [hc]
    exact ⟨rfl, rfl, rfl, rfl, rfl, fun x hx => by rw [hd] at hx; cases hx⟩

theorem delBlocks_fst_mono (k : Kind) (verify : String → List Nat → Bool)
    (now thr : Nat) :
    ∀ (bs : List Block) (recs : List Record),
      List.Forall₂ blockMonoD bs (delBlocks k verify now thr bs recs).1 := by
  intro bs
  induction bs with
  | nil => intro recs; exact List.Forall₂.nil
  | cons b bs ih =>
    intro recs
    exact List.Forall₂.cons (processDelete_mono k verify now thr b recs) (ih _)

/-- C9: blocks only move forward through
SCHEDULED → ARCHIVED → FINALIZED: scheduling keeps every existing block
untouched, a writer pass never changes the range, never unsets a set
`s3_key`/`archive_sha` and leaves `archive_date` exactly as it was (so a
freshly written block still has it unset), and an enforcer pass keeps the
range, key and digest and only ever turns an unset `archive_date` into a
set one. The hypothesis states the state-machine well-formedness that a
block with no `s3_key` has no `archive_sha`. -/
theorem c9_forward_only (st : State) (k : Kind) (n : Nat)
    (sha1 : List Nat → List Nat) (upOk : String → Bool) (pre : String)
    (verify : String → List Nat → Bool) (now thr : Nat)
    (hwf : ∀ b ∈ st.blocks, b.s3_key = none → b.archive_sha = none) :
    ((schedule k n st).2.blocks =
      st.blocks ++ ((schedule k n st).1).map (fun p => mkBlock k p.1 p.2)) ∧
    List.Forall₂ blockMonoW st.blocks ((writeArchives k sha1 upOk pre st).1.blocks) ∧
    List.Forall₂ blockMonoD st.blocks ((deleteArchived k verify now thr st).blocks) := by
  refine ⟨?_, ?_, ?_⟩
  · unfold schedule
    split
    · simp
    · rfl
  · unfold writeArchives
    simp only [List.map_map]
    exact List.forall₂_map_right_iff.2
      (List.forall₂_same.2 (fun b hb =>
        processWrite_mono k sha1 upOk pre st.records b (hwf b hb)))
  · exact delBlocks_fst_mono k verify now thr st.blocks st.records

/-- C9 witness: in the deletion-test state, a scheduling call leaves the
existing block list as a prefix and only appends fresh blocks. -/
theorem c9_forward_only_witness :
    (schedule Kind.cell 5 stDel).2.blocks =
      stDel.blocks ++
        ((schedule Kind.cell 5 stDel).1).map (fun p => mkBlock Kind.cell p.1 p.2) :=
  (c9_forward_only stDel Kind.cell 5 (fun l => l) (fun _ => true) "backups"
    (fun _ _ => true) 1000 10 (by decide)).1

/-! ## Scheduler lemmas -/

theorem foldl_max_shift (xs : List Nat) (a : Nat) :
    xs.foldl Nat.max a = Nat.max a (xs.foldl Nat.max 0) := by
  induction xs generalizing a with
  | nil => simp [List.foldl]
  | cons x xs ih =>
    simp only [List.foldl]
    rw [ih (Nat.max a x), ih (Nat.max 0 x)]
    simp only [Nat.max_def]
    split_ifs <;> omega

theorem foldl_max_zero_append (e1 e2 : List Nat) :
    (e1 ++ e2).foldl Nat.max 0 = Nat.max (e1.foldl Nat.max 0) (e2.foldl Nat.max 0) := by
  rw [List.foldl_append, foldl_max_shift]

theorem foldl_max_range_mul (L n : Nat) :
    ∀ c : Nat, ((List.range (c + 1)).map (fun i => L + (i + 1) * n)).foldl Nat.max 0 =
      L + (c + 1) * n := by
  intro c
  induction c with
  | zero => simp [List.range_succ, List.foldl, Nat.zero_max]
  | succ c0 ih =>
    rw [List.range_succ, List.map_append, foldl_max_zero_append, ih]
    have h1 : (c0 + 1) * n ≤ (c0 + 1 + 1) * n :=
      Nat.mul_le_mul_right n (by omega)
    simp only [List.map_cons, List.map_nil, List.foldl, Nat.zero_max]
    exact Nat.max_eq_right (Nat.add_le_add_left h1 L)

theorem blockEndsOf_append (k : Kind) (recs : List Record) (bs1 bs2 : List Block) :
    blockEndsOf k ⟨recs, bs1 ++ bs2⟩ =
      blockEndsOf k ⟨recs, bs1⟩ ++ blockEndsOf k ⟨recs, bs2⟩ := by
  simp [blockEndsOf, List.filter_append]

theorem filter_mk_blocks (k k2 : Kind) (l : List (Nat × Nat)) :
    (l.map (fun p => mkBlock k p.1 p.2)).filter (fun b => b.measure_type == k2) =
      if k = k2 then l.map (fun p => mkBlock k p.1 p.2) else [] := by
  rw [List.filter_map]
  have hpred : ∀ p ∈ l,
      ((fun b => b.measure_type == k2) ∘ (fun p : Nat × Nat => mkBlock k p.1 p.2)) p
        = (fun _ : Nat × Nat => k == k2) p := fun p _ => rfl
  rw [List.filter_congr hpred]
  by_cases h : k = k2
  · subst h
    simp only [beq_self_eq_true, if_true, List.filter_true]
  · have hb : (k == k2) = false := beq_eq_false_iff_ne.2 h
    simp only [hb, if_neg h, List.filter_false, List.map_nil]

theorem blockEndsOf_mk (k : Kind) (recs : List Record) (l : List (Nat × Nat)) :
    blockEndsOf k ⟨recs, l.map (fun p => mkBlock k p.1 p.2)⟩ = l.map Prod.snd := by
  unfold blockEndsOf
  rw [filter_mk_blocks, if_pos rfl, List.map_map]
  rfl

/-- Closed form of one scheduling call when records of the kind exist. -/
theorem schedule_eval (k : Kind) (n : Nat) (st : State) (L M c : Nat)
    (hne : (idsOf k st).isEmpty = false)
    (hmax : maxIdOf k st = M) (hlast : lastEndOf k st = L)
    (hcnt : (M + 1 - L) / n = c) :
    schedule k n st =
      ((List.range c).map (fun i => (L + i * n, L + (i + 1) * n)),
       ⟨st.records,
        st.blocks ++ (List.range c).map (fun i => mkBlock k (L + i * n) (L + (i + 1) * n))⟩) := by
  have hcond : ¬ ((idsOf k st).isEmpty = true) := by
    rw [hne]; exact Bool.false_ne_true
  unfold schedule
  rw [if_neg hcond]
  unfold schedRanges schedCount
  rw [hmax, hlast, hcnt, List.map_map]
  rfl

theorem div_remainder_zero (r n : Nat) (hn : 0 < n) : (r - r / n * n) / n = 0 := by
  apply Nat.div_eq_of_lt
  have hmod := Nat.mod_add_div r n
  have hmlt := Nat.mod_lt r hn
  rw [Nat.mul_comm (r / n) n]
  omega

/-- The fold of the existing block ends never exceeds where scheduling
resumes. -/
theorem foldl_ends_le_lastEnd (k : Kind) (st : State) :
    (blockEndsOf k st).foldl Nat.max 0 ≤ lastEndOf k st := by
  rcases he : blockEndsOf k st with _ | ⟨e, es⟩
  · exact Nat.zero_le _
  · unfold lastEndOf
    rw [he, if_neg (by simp)]

/-- A second scheduling call on the state the first one produced emits
nothing and changes nothing. -/
theorem schedule_idem (st : State) (k : Kind) (n : Nat) :
    schedule k n (schedule k n st).2 = ([], (schedule k n st).2) := by
  by_cases hE : (idsOf k st).isEmpty = true
  · have h1 : schedule k n st = ([], st) := by
      unfold schedule; rw [if_pos hE]
    rw [h1]
    exact h1
  · have hne : (idsOf k st).isEmpty = false := by
      cases h : (idsOf k st).isEmpty
      · rfl
      · exact absurd h hE
    cases hc : schedCount k n st with
    | zero =>
      have hev := schedule_eval k n st (lastEndOf k st) (maxIdOf k st) 0 hne rfl rfl hc
      simp only [List.range_zero, List.map_nil, List.append_nil] at hev
      rw [hev]
      show schedule k n st = ([], st)
      exact hev
    | succ c0 =>
      have hn : 0 < n := by
        rcases Nat.eq_zero_or_pos n with h0 | h
        · exfalso
          have hz : schedCount k n st = 0 := by
            unfold schedCount; rw [h0, Nat.div_zero]
          omega
        · exact h
      have hev := schedule_eval k n st (lastEndOf k st) (maxIdOf k st) (c0 + 1) hne rfl rfl hc
      rw [hev]
      show schedule k n
          (⟨st.records,
            st.blocks ++ (List.range (c0 + 1)).map
              (fun i => mkBlock k (lastEndOf k st + i * n) (lastEndOf k st + (i + 1) * n))⟩ : State) =
        ([], ⟨st.records,
            st.blocks ++ (List.range (c0 + 1)).map
              (fun i => mkBlock k (lastEndOf k st + i * n) (lastEndOf k st + (i + 1) * n))⟩)
      have hends2 : blockEndsOf k
          (⟨st.records,
            st.blocks ++ (List.range (c0 + 1)).map
              (fun i => mkBlock k (lastEndOf k st + i * n) (lastEndOf k st + (i + 1) * n))⟩ : State) =
          blockEndsOf k st ++ (List.range (c0 + 1)).map
            (fun i => lastEndOf k st + (i + 1) * n) := by
        rw [show (st.blocks ++ (List.range (c0 + 1)).map
              (fun i => mkBlock k (lastEndOf k st + i * n) (lastEndOf k st + (i + 1) * n))) =
            (st.blocks ++ ((List.range (c0 + 1)).map
              (fun i => (lastEndOf k st + i * n, lastEndOf k st + (i + 1) * n))).map
                (fun p => mkBlock k p.1 p.2)) from by rw [List.map_map]; rfl]
        rw [blockEndsOf_append]
        rw [show blockEndsOf k ⟨st.records, st.blocks⟩ = blockEndsOf k st from rfl]
        rw [blockEndsOf_mk, List.map_map]
        rfl
      have hlast2 : lastEndOf k
          (⟨st.records,
            st.blocks ++ (List.range (c0 + 1)).map
              (fun i => mkBlock k (lastEndOf k st + i * n) (lastEndOf k st + (i + 1) * n))⟩ : State) =
          lastEndOf k st + (c0 + 1) * n := by
        rw [show ∀ st2 : State, lastEndOf k st2 =
            if blockEndsOf k st2 = [] then minIdOf k st2
            else (blockEndsOf k st2).foldl Nat.max 0 from fun _ => rfl]
        rw [hends2]
        have hnonnil : blockEndsOf k st ++ (List.range (c0 + 1)).map
            (fun i => lastEndOf k st + (i + 1) * n) ≠ [] := by
          simp [List.range_succ]
        rw [if_neg hnonnil, foldl_max_zero_append, foldl_max_range_mul]
        exact Nat.max_eq_right
          (Nat.le_trans (foldl_ends_le_lastEnd k st) (Nat.le_add_right _ _))
      have hcnt2 : (maxIdOf k st + 1 -
          (lastEndOf k st + (c0 + 1) * n)) / n = 0 := by
        rw [← Nat.sub_sub]
        rw [show c0 + 1 = (maxIdOf k st + 1 - lastEndOf k st) / n from hc.symm]
        exact div_remainder_zero (maxIdOf k st + 1 - lastEndOf k st) n hn
      have hev2 := schedule_eval k n
        (⟨st.records,
          st.blocks ++ (List.range (c0 + 1)).map
            (fun i => mkBlock k (lastEndOf k st + i * n) (lastEndOf k st + (i + 1) * n))⟩ : State)
        (lastEndOf k st + (c0 + 1) * n) (maxIdOf k st) 0 hne rfl hlast2 hcnt2
      rw [hev2]
      simp only [List.range_zero, List.map_nil, List.append_nil]

/-! ## Concrete record ranges -/

theorem recsIds_ids (k : Kind) (a c t : Nat) (bs : List Block) :
    idsOf k ⟨recsIds k a c t, bs⟩ = (List.range c).map (fun i => a + i) := by
  unfold idsOf recsOf recsIds
  rw [List.filter_map]
  have hpred : ∀ i ∈ List.range c,
      ((fun r : Record => r.kind == k) ∘ (fun i => (⟨k, a + i, t⟩ : Record))) i
        = (fun _ : Nat => true) i := fun i _ => by simp
  rw [List.filter_congr hpred, List.filter_true, List.map_map]
  rfl

theorem recsIds_isEmpty (k : Kind) (a c t : Nat) (bs : List Block) (hc : 0 < c) :
    (idsOf k ⟨recsIds k a c t, bs⟩).isEmpty = false := by
  rw [recsIds_ids]
  cases hr : (List.range c).map (fun i => a + i) with
  | nil =>
    exfalso
    have hlen := congrArg List.length hr
    simp at hlen
    omega
  | cons x xs => rfl

theorem recsIds_maxId (k : Kind) (a c t : Nat) (bs : List Block) (hc : 0 < c) :
    maxIdOf k ⟨recsIds k a c t, bs⟩ = a + (c - 1) := by
  apply maxIdOf_eq
  · rw [recsIds_ids]
    exact List.mem_map.2 ⟨c - 1, List.mem_range.2 (by omega), rfl⟩
  · intro y hy
    rw [recsIds_ids] at hy
    obtain ⟨i, hi, rfl⟩ := List.mem_map.1 hy
    have := List.mem_range.1 hi
    omega

theorem recsIds_minId (k : Kind) (a c t : Nat) (bs : List Block) (hc : 0 < c) :
    minIdOf k ⟨recsIds k a c t, bs⟩ = a := by
  apply minIdOf_eq
  · rw [recsIds_ids]
    exact List.mem_map.2 ⟨0, List.mem_range.2 hc, rfl⟩
  · intro y hy
    rw [recsIds_ids] at hy
    obtain ⟨i, hi, rfl⟩ := List.mem_map.1 hy
    omega

theorem lastEndOf_nil (k : Kind) (recs : List Record) :
    lastEndOf k ⟨recs, []⟩ = minIdOf k ⟨recs, []⟩ := by
  unfold lastEndOf
  have h : blockEndsOf k ⟨recs, []⟩ = [] := rfl
  rw [h]
  simp

theorem lastEndOf_single (k : Kind) (recs : List Record) (a b : Nat) :
    lastEndOf k ⟨recs, [mkBlock k a b]⟩ = b := by
  have h : blockEndsOf k ⟨recs, [mkBlock k a b]⟩ = [b] := by
    simp [blockEndsOf, mkBlock]
  unfold lastEndOf
  rw [h, if_neg (by simp)]
  show Nat.max 0 b = b
  exact Nat.max_eq_right (Nat.zero_le b)

theorem lastEndOf_pair (k : Kind) (recs : List Record) (a b a2 b2 : Nat) :
    lastEndOf k ⟨recs, [mkBlock k a b, mkBlock k a2 b2]⟩ = Nat.max (Nat.max 0 b) b2 := by
  have h : blockEndsOf k ⟨recs, [mkBlock k a b, mkBlock k a2 b2]⟩ = [b, b2] := by
    simp [blockEndsOf, mkBlock]
  unfold lastEndOf
  rw [h, if_neg (by simp)]
  rfl

/-- The first block emitted by one scheduling call starts where scheduling
resumed and has exactly the requested width, and is persisted. -/
theorem schedule_first_block (st : State) (k : Kind) (n L M : Nat)
    (hn : 0 < n) (hne : (idsOf k st).isEmpty = false)
    (hmax : maxIdOf k st = M) (hlast : lastEndOf k st = L)
    (hcond : L + n ≤ M + 1) :
    (schedule k n st).1.head? = some (L, L + n) ∧
    mkBlock k L (L + n) ∈ (schedule k n st).2.blocks := by
  have hcpos : 0 < (M + 1 - L) / n := (Nat.one_le_div_iff hn).2 (by omega)
  obtain ⟨c0, hc0⟩ : ∃ c0, (M + 1 - L) / n = c0 + 1 :=
    ⟨(M + 1 - L) / n - 1, by omega⟩
  have he := schedule_eval k n st L M (c0 + 1) hne hmax hlast hc0
  rw [he]
  constructor
  · rw [List.range_succ_eq_map]
    simp [List.head?]
  · refine List.mem_append_right _ ?_
    rw [List.range_succ_eq_map]
    simp only [List.map_cons]
    have harith : (L + 0 * n, L + (0 + 1) * n) = (L, L + n) := by
      simp
    rw [show mkBlock k (L + 0 * n) (L + (0 + 1) * n) = mkBlock k L (L + n) from by simp]
    exact List.mem_cons_self _ _

/-- C2 (corrected): scheduling resumes from the maximum `end_id` over the
kind's existing blocks; when NO block exists it resumes from the smallest
existing record id of the kind — not from 0 — so the first emitted and
persisted block is `[minId, minId + batchSize)`. -/
theorem c2_schedule_resume (st : State) (k : Kind) (n m M : Nat)
    (hn : 0 < n)
    (hmem : m ∈ idsOf k st) (hmin : ∀ y ∈ idsOf k st, m ≤ y)
    (hMmem : M ∈ idsOf k st) (hMmax : ∀ y ∈ idsOf k st, y ≤ M) :
    (st.blocks.filter (fun b => b.measure_type == k) = [] → m + n ≤ M + 1 →
       (schedule k n st).1.head? = some (m, m + n) ∧
       mkBlock k m (m + n) ∈ (schedule k n st).2.blocks) ∧
    (∀ E, E ∈ blockEndsOf k st → (∀ e ∈ blockEndsOf k st, e ≤ E) → E + n ≤ M + 1 →
       (schedule k n st).1.head? = some (E, E + n) ∧
       mkBlock k E (E + n) ∈ (schedule k n st).2.blocks) := by
  have hne : (idsOf k st).isEmpty = false := by
    cases h : idsOf k st with
    | nil => rw [h] at hmem; cases hmem
    | cons x xs => rfl
  have hmax := maxIdOf_eq k st M hMmem hMmax
  constructor
  · intro hblocks hcond
    have hlast : lastEndOf k st = m := by
      have hbe : blockEndsOf k st = [] := by
        unfold blockEndsOf
        rw [hblocks]
        rfl
      unfold lastEndOf
      rw [hbe]
      simp only [if_pos rfl]
      exact minIdOf_eq k st m hmem hmin
    exact schedule_first_block st k n m M hn hne hmax hlast hcond
  · intro E hEmem hEub hcond
    exact schedule_first_block st k n E M hn hne hmax
      (lastEndOf_eq k st E hEmem hEub) hcond

/-- C2 witness: 20 cell records with ids 1..20 and no blocks; with batch 15
the first block is [1, 16), starting at the smallest record id. -/
theorem c2_schedule_resume_witness :
    (schedule Kind.cell 15 ⟨recsIds Kind.cell 1 20 0, []⟩).1.head? = some (1, 16) ∧
    mkBlock Kind.cell 1 16 ∈
      (schedule Kind.cell 15 ⟨recsIds Kind.cell 1 20 0, []⟩).2.blocks :=
  (c2_schedule_resume ⟨recsIds Kind.cell 1 20 0, []⟩ Kind.cell 15 1 20
    (by decide) (by decide) (by decide) (by decide) (by decide)).1
    (by decide) (by decide)

/-- C2 counterexample: with record ids 1..20 and no prior blocks, the first
scheduled block is [1, 16), not [0, 15) — the claim's "lastEnd = 0 when no
blocks exist, regardless of the first record id" does not hold. -/
theorem c2_zero_start_counterexample :
    (schedule Kind.cell 15 ⟨recsIds Kind.cell 1 20 0, []⟩).1 = [(1, 16)] ∧
    (schedule Kind.cell 15 ⟨recsIds Kind.cell 1 20 0, []⟩).1 ≠ [(0, 15)] ∧
    (⟨recsIds Kind.cell 1 20 0, []⟩ : State).blocks = [] := by
  decide

/-! ## The concrete 20-record scheduling scenarios -/

/-- 20 contiguous cell records starting at id `s`, no blocks yet. -/
def c6st0 (s : Nat) : State := ⟨recsIds Kind.cell s 20 0, []⟩

def c6st1 (s : Nat) : State := (schedule Kind.cell 15 (c6st0 s)).2

def c6st2 (s : Nat) : State := (schedule Kind.cell 6 (c6st1 s)).2

def c6st3 (s : Nat) : State := (schedule Kind.cell 5 (c6st2 s)).2

/-- C6: with 20 contiguous records and no prior blocks, the call sequence
batch 15, 6, 5, 1 returns one block [s, s+15), nothing (remainder 5 < 6),
the block [s+15, s+20) covering the remaining 5 ids, and nothing. -/
theorem c6_schedule_sequence (s : Nat) :
    (schedule Kind.cell 15 (c6st0 s)).1 = [(s, s + 15)] ∧
    (schedule Kind.cell 6 (c6st1 s)).1 = [] ∧
    (schedule Kind.cell 5 (c6st2 s)).1 = [(s + 15, s + 20)] ∧
    (schedule Kind.cell 1 (c6st3 s)).1 = [] := by
  have hmax0 : maxIdOf Kind.cell (c6st0 s) = s + 19 := by
    show maxIdOf Kind.cell ⟨recsIds Kind.cell s 20 0, []⟩ = s + 19
    rw [recsIds_maxId Kind.cell s 20 0 [] (by omega)]
  have hlast0 : lastEndOf Kind.cell (c6st0 s) = s := by
    show lastEndOf Kind.cell ⟨recsIds Kind.cell s 20 0, []⟩ = s
    rw [lastEndOf_nil]
    exact recsIds_minId Kind.cell s 20 0 [] (by omega)
  have hne0 : (idsOf Kind.cell (c6st0 s)).isEmpty = false :=
    recsIds_isEmpty Kind.cell s 20 0 [] (by omega)
  have hcnt0 : (s + 19 + 1 - s) / 15 = 1 := by omega
  have h0 : schedule Kind.cell 15 (c6st0 s) =
      ([(s, s + 15)],
       ⟨recsIds Kind.cell s 20 0, [mkBlock Kind.cell s (s + 15)]⟩) := by
    rw [schedule_eval Kind.cell 15 (c6st0 s) s (s + 19) 1 hne0 hmax0 hlast0 hcnt0]
    show (_, (⟨recsIds Kind.cell s 20 0, ([] : List Block) ++ _⟩ : State)) = _
    simp [List.range_succ]
  have hst1 : c6st1 s = ⟨recsIds Kind.cell s 20 0, [mkBlock Kind.cell s (s + 15)]⟩ := by
    unfold c6st1
    rw [h0]
  have hne1 : (idsOf Kind.cell (c6st1 s)).isEmpty = false := by
    rw [hst1]
    exact recsIds_isEmpty Kind.cell s 20 0 _ (by omega)
  have hmax1 : maxIdOf Kind.cell (c6st1 s) = s + 19 := by
    rw [hst1]
    rw [recsIds_maxId Kind.cell s 20 0 _ (by omega)]
  have hlast1 : lastEndOf Kind.cell (c6st1 s) = s + 15 := by
    rw [hst1]
    exact lastEndOf_single Kind.cell _ s (s + 15)
  have hcnt1 : (s + 19 + 1 - (s + 15)) / 6 = 0 := by omega
  have h1 : schedule Kind.cell 6 (c6st1 s) =
      ([], ⟨recsIds Kind.cell s 20 0, [mkBlock Kind.cell s (s + 15)]⟩) := by
    rw [schedule_eval Kind.cell 6 (c6st1 s) (s + 15) (s + 19) 0 hne1 hmax1 hlast1 hcnt1]
    rw [hst1]
    simp
  have hst2 : c6st2 s = ⟨recsIds Kind.cell s 20 0, [mkBlock Kind.cell s (s + 15)]⟩ := by
    unfold c6st2
    rw [h1]
  have hne2 : (idsOf Kind.cell (c6st2 s)).isEmpty = false := by
    rw [hst2]
    exact recsIds_isEmpty Kind.cell s 20 0 _ (by omega)
  have hmax2 : maxIdOf Kind.cell (c6st2 s) = s + 19 := by
    rw [hst2]
    rw [recsIds_maxId Kind.cell s 20 0 _ (by omega)]
  have hlast2 : lastEndOf Kind.cell (c6st2 s) = s + 15 := by
    rw [hst2]
    exact lastEndOf_single Kind.cell _ s (s + 15)
  have hcnt2 : (s + 19 + 1 - (s + 15)) / 5 = 1 := by omega
  have h2 : schedule Kind.cell 5 (c6st2 s) =
      ([(s + 15, s + 20)],
       ⟨recsIds Kind.cell s 20 0,
        [mkBlock Kind.cell s (s + 15), mkBlock Kind.cell (s + 15) (s + 20)]⟩) := by
    rw [schedule_eval Kind.cell 5 (c6st2 s) (s + 15) (s + 19) 1 hne2 hmax2 hlast2 hcnt2]
    rw [hst2]
    simp [List.range_succ]
  have hst3 : c6st3 s =
      ⟨recsIds Kind.cell s 20 0,
       [mkBlock Kind.cell s (s + 15), mkBlock Kind.cell (s + 15) (s + 20)]⟩ := by
    unfold c6st3
    rw [h2]
  have hne3 : (idsOf Kind.cell (c6st3 s)).isEmpty = false := by
    rw [hst3]
    exact recsIds_isEmpty Kind.cell s 20 0 _ (by omega)
  have hmax3 : maxIdOf Kind.cell (c6st3 s) = s + 19 := by
    rw [hst3]
    rw [recsIds_maxId Kind.cell s 20 0 _ (by omega)]
  have hlast3 : lastEndOf Kind.cell (c6st3 s) = s + 20 := by
    rw [hst3, lastEndOf_pair]
    have e1 : Nat.max 0 (s + 15) = s + 15 := Nat.max_eq_right (Nat.zero_le _)
    rw [e1]
    exact Nat.max_eq_right (by omega)
  have hcnt3 : (s + 19 + 1 - (s + 20)) / 1 = 0 := by omega
  have h3 : (schedule Kind.cell 1 (c6st3 s)).1 = [] := by
    rw [schedule_eval Kind.cell 1 (c6st3 s) (s + 20) (s + 19) 0 hne3 hmax3 hlast3 hcnt3]
    simp
  exact ⟨by rw [h0], by rw [h1], by rw [h2], h3⟩

/-- C7: a second scheduling call on an unchanged record set emits nothing
and persists nothing (general idempotence), and concretely 20 contiguous
wifi records scheduled twice with batch 10 yield the two adjacent blocks
[s, s+10), [s+10, s+20) on the first call and nothing on the second. -/
theorem c7_schedule_idempotent :
    (∀ (st : State) (k : Kind) (n : Nat),
        schedule k n (schedule k n st).2 = ([], (schedule k n st).2)) ∧
    (∀ s : Nat,
        (schedule Kind.wifi 10 ⟨recsIds Kind.wifi s 20 0, []⟩).1 =
          [(s, s + 10), (s + 10, s + 20)] ∧
        (schedule Kind.wifi 10
            (schedule Kind.wifi 10 ⟨recsIds Kind.wifi s 20 0, []⟩).2).1 = []) := by
  refine ⟨fun st k n => schedule_idem st k n, fun s => ⟨?_, ?_⟩⟩
  · have hne : (idsOf Kind.wifi ⟨recsIds Kind.wifi s 20 0, []⟩).isEmpty = false :=
      recsIds_isEmpty Kind.wifi s 20 0 [] (by omega)
    have hmax : maxIdOf Kind.wifi ⟨recsIds Kind.wifi s 20 0, []⟩ = s + 19 := by
      rw [recsIds_maxId Kind.wifi s 20 0 [] (by omega)]
    have hlast : lastEndOf Kind.wifi ⟨recsIds Kind.wifi s 20 0, []⟩ = s := by
      rw [lastEndOf_nil]
      exact recsIds_minId Kind.wifi s 20 0 [] (by omega)
    have hcnt : (s + 19 + 1 - s) / 10 = 2 := by omega
    rw [schedule_eval Kind.wifi 10 _ s (s + 19) 2 hne hmax hlast hcnt]
    show List.map (fun i => (s + i * 10, s + (i + 1) * 10)) (List.range 2) =
      [(s, s + 10), (s + 10, s + 20)]
    simp [List.range_succ]
  · exact congrArg Prod.fst
      (schedule_idem ⟨recsIds Kind.wifi s 20 0, []⟩ Kind.wifi 10)

/-! ## Block ordering invariant -/

/-- The persisted blocks of one kind. -/
def blocksOf (k : Kind) (st : State) : List Block :=
  st.blocks.filter (fun b => b.measure_type == k)

/-- The blocks of a kind are non-overlapping (each ends no later than the
next starts) and non-degenerate, hence strictly increasing in `start_id`. -/
def BlocksOrdered (k : Kind) (st : State) : Prop :=
  List.Chain' (fun b b2 : Block => b.end_id ≤ b2.start_id) (blocksOf k st) ∧
  ∀ b ∈ blocksOf k st, b.start_id < b.end_id

/-- States reachable from a block-free start by scheduling calls with
arbitrary kinds and batch sizes and by record growth. -/
inductive Reach : State → Prop
  | start (recs : List Record) : Reach ⟨recs, []⟩
  | sched (k : Kind) (n : Nat) (st : State) : Reach st → Reach (schedule k n st).2
  | grow (r : Record) (st : State) : Reach st → Reach ⟨st.records ++ [r], st.blocks⟩

theorem chain_new_blocks (k : Kind) (L n : Nat) (c : Nat) :
    List.Chain' (fun b b2 : Block => b.end_id ≤ b2.start_id)
      ((List.range c).map (fun i => mkBlock k (L + i * n) (L + (i + 1) * n))) := by
  rw [List.chain'_map]
  cases c with
  | zero => simp
  | succ c0 => exact (List.chain'_range_succ _ c0).2 (fun m hm => Nat.le_refl _)

/-- Scheduling preserves the ordering invariant for every kind. -/
theorem BlocksOrdered_schedule (st : State) (k2 k : Kind) (n : Nat)
    (h : BlocksOrdered k2 st) : BlocksOrdered k2 (schedule k n st).2 := by
  unfold schedule
  split
  · exact h
  · show BlocksOrdered k2 ⟨st.records, st.blocks ++ _⟩
    have hfilter : blocksOf k2
        (⟨st.records,
          st.blocks ++ (schedRanges k n st).map (fun p => mkBlock k p.1 p.2)⟩ : State) =
        blocksOf k2 st ++
          ((schedRanges k n st).map (fun p => mkBlock k p.1 p.2)).filter
            (fun b => b.measure_type == k2) := by
      unfold blocksOf
      rw [List.filter_append]
    by_cases hk : k = k2
    · subst hk
      rw [show ((schedRanges k n st).map (fun p => mkBlock k p.1 p.2)).filter
            (fun b => b.measure_type == k) =
          (schedRanges k n st).map (fun p => mkBlock k p.1 p.2) from by
        rw [filter_mk_blocks, if_pos rfl]] at hfilter
      cases hc : schedCount k n st with
      | zero =>
        have hnil : schedRanges k n st = [] := by
          unfold schedRanges
          rw [hc]
          rfl
        have hbeq : (⟨st.records,
            st.blocks ++ (schedRanges k n st).map (fun p => mkBlock k p.1 p.2)⟩ : State) = st := by
          rw [hnil]
          show (⟨st.records, st.blocks ++ []⟩ : State) = st
          rw [List.append_nil]
        rw [hbeq]
        exact h
      | succ c0 =>
        have hn : 0 < n := by
          rcases Nat.eq_zero_or_pos n with h0 | hpos
          · exfalso
            have hz : schedCount k n st = 0 := by
              unfold schedCount
              rw [h0, Nat.div_zero]
            omega
          · exact hpos
        have hranges : (schedRanges k n st).map (fun p => mkBlock k p.1 p.2) =
            (List.range (c0 + 1)).map
              (fun i => mkBlock k (lastEndOf k st + i * n) (lastEndOf k st + (i + 1) * n)) := by
          unfold schedRanges
          rw [hc, List.map_map]
          rfl
        rw [hranges] at hfilter ⊢
        constructor
        · rw [hfilter]
          refine List.chain'_append.2 ⟨h.1, chain_new_blocks k (lastEndOf k st) n (c0 + 1), ?_⟩
          intro x hx y hy
          rw [List.range_succ_eq_map] at hy
          simp only [List.map_cons, List.head?_cons, Option.mem_def, Option.some_inj] at hy
          have hstart : y.start_id = lastEndOf k st := by
            rw [← hy]
            show lastEndOf k st + 0 * n = lastEndOf k st
            omega
          rw [hstart]
          have hxmem : x ∈ blocksOf k st := by
            obtain ⟨hne, rfl⟩ := List.mem_getLast?_eq_getLast hx
            exact List.getLast_mem hne
          have hends : x.end_id ∈ blockEndsOf k st := by
            unfold blockEndsOf
            exact List.mem_map.2 ⟨x, hxmem, rfl⟩
          exact le_lastEndOf k st x.end_id hends
        · intro b hb
          rw [hfilter] at hb
          rcases List.mem_append.1 hb with hold | hnew
          · exact h.2 b hold
          · obtain ⟨i, hi, rfl⟩ := List.mem_map.1 hnew
            show lastEndOf k st + i * n < lastEndOf k st + (i + 1) * n
            have : (i + 1) * n = i * n + n := Nat.succ_mul i n
            omega
    · rw [show ((schedRanges k n st).map (fun p => mkBlock k p.1 p.2)).filter
            (fun b => b.measure_type == k2) = [] from by
          rw [filter_mk_blocks, if_neg hk]] at hfilter
      rw [List.append_nil] at hfilter
      refine ⟨?_, ?_⟩
      · rw [hfilter]
        exact h.1
      · intro b hb
        rw [hfilter] at hb
        exact h.2 b hb

/-- C8: along every sequence of scheduling calls (any kinds, any batch
sizes) interleaved with record growth from a block-free start, the blocks of
each kind stay non-overlapping with strictly increasing, non-degenerate
ranges; moreover every range one call emits has exactly the requested width
`n` and fits inside the unscheduled remainder (`b <= maxId + 1`), so a
block of size `n` is only produced when the remainder is at least `n`. -/
theorem c8_schedule_invariant (st : State) (k : Kind) (n : Nat) :
    (Reach st → ∀ k2, BlocksOrdered k2 st) ∧
    (∀ a b : Nat, (a, b) ∈ (schedule k n st).1 →
       b = a + n ∧ b ≤ maxIdOf k st + 1) := by
  constructor
  · intro h
    induction h with
    | start recs =>
      intro k2
      exact ⟨List.chain'_nil, fun b hb => absurd hb (by simp [blocksOf])⟩
    | sched k0 n0 st0 hst ih =>
      intro k2
      exact BlocksOrdered_schedule st0 k2 k0 n0 (ih k2)
    | grow r st0 hst ih =>
      intro k2
      exact ih k2
  · intro a b hab
    unfold schedule at hab
    split at hab
    · cases hab
    · obtain ⟨i, hi, heq⟩ := List.mem_map.1 hab
      injection heq with h1 h2
      subst h1
      subst h2
      have hilt := List.mem_range.1 hi
      have hn : 0 < n := by
        rcases Nat.eq_zero_or_pos n with h0 | hpos
        · exfalso
          unfold schedCount at hilt
          rw [h0, Nat.div_zero] at hilt
          omega
        · exact hpos
      constructor
      · rw [Nat.succ_mul]
        omega
      · unfold schedCount at hilt
        have hle : (i + 1) * n ≤ maxIdOf k st + 1 - lastEndOf k st :=
          (Nat.le_div_iff_mul_le hn).1 (by omega)
        have hsm : (i + 1) * n = i * n + n := Nat.succ_mul i n
        omega

/-- C8 witness: a reachable state (one scheduling call of batch 7 on 20
cell records) applied through the invariant theorem. -/
theorem c8_schedule_invariant_witness :
    BlocksOrdered Kind.cell (schedule Kind.cell 7 ⟨recsIds Kind.cell 1 20 0, []⟩).2 :=
  ((c8_schedule_invariant (schedule Kind.cell 7 ⟨recsIds Kind.cell 1 20 0, []⟩).2
      Kind.cell 7).1
    (Reach.sched Kind.cell 7 ⟨recsIds Kind.cell 1 20 0, []⟩
      (Reach.start (recsIds Kind.cell 1 20 0)))) Kind.cell

end Ichnaea
